import Mathlib

/-!
Verification of the chunk-splitting engine and compile-cache serving protocol
of the duck dev server (compiler.ts, gendeps.ts, serve.ts).

JavaScript `Map` and `Set` are embedded as association lists and
duplicate-free lists that preserve insertion order, matching the iteration
semantics of the originals.  The `Dag` class (dag.ts) is not part of the
given sources; it is modelled from the specification where noted.
-/

namespace Duck

/-! ## Insertion-ordered sets and maps (JS `Set` / `Map` semantics) -/

/-- `Set.add`: append the element unless it is already present
(first insertion wins, iteration order is insertion order). -/
def insertUnique (l : List String) (x : String) : List String :=
  if x ∈ l then l else l ++ [x]

/-- Add all elements of `ps` into the insertion-ordered set `l`. -/
def pushAll (l : List String) (ps : List String) : List String :=
  ps.foldl insertUnique l

/-- `Map.set` / JS object property assignment: overwrite the value at an
existing key in place, otherwise append the new entry. -/
def setAssoc {α : Type} (m : List (String × α)) (k : String) (v : α) :
    List (String × α) :=
  if m.any (fun e => e.1 == k) then
    m.map (fun e => if e.1 = k then (k, v) else e)
  else
    m ++ [(k, v)]

theorem insertUnique_of_mem {l : List String} {x : String} (h : x ∈ l) :
    insertUnique l x = l := by
  simp [insertUnique, h]

theorem insertUnique_of_not_mem {l : List String} {x : String} (h : x ∉ l) :
    insertUnique l x = l ++ [x] := by
  simp [insertUnique, h]

theorem mem_insertUnique {l : List String} {x y : String} :
    y ∈ insertUnique l x ↔ y ∈ l ∨ y = x := by
  by_cases h : x ∈ l
  · simp only [insertUnique_of_mem h]
    constructor
    · exact Or.inl
    · rintro (hy | rfl) <;> [exact hy; exact h]
  · simp [insertUnique_of_not_mem h]

theorem nodup_insertUnique {l : List String} (h : l.Nodup) (x : String) :
    (insertUnique l x).Nodup := by
  by_cases hx : x ∈ l
  · simpa [insertUnique_of_mem hx] using h
  · simpa [insertUnique_of_not_mem hx, List.nodup_append] using ⟨h, hx⟩

theorem pushAll_nil (l : List String) : pushAll l [] = l := rfl

theorem pushAll_cons (l : List String) (p : String) (ps : List String) :
    pushAll l (p :: ps) = pushAll (insertUnique l p) ps := rfl

theorem pushAll_append (l : List String) (ps qs : List String) :
    pushAll l (ps ++ qs) = pushAll (pushAll l ps) qs :=
  List.foldl_append _ _ _ _

theorem mem_pushAll {ps : List String} :
    ∀ {l : List String} {y : String}, y ∈ pushAll l ps ↔ y ∈ l ∨ y ∈ ps := by
  induction ps with
  | nil => intro l y; simp [pushAll_nil]
  | cons p ps ih =>
    intro l y
    rw [pushAll_cons, ih, mem_insertUnique]
    constructor
    · rintro ((h | rfl) | h)
      · exact Or.inl h
      · exact Or.inr (List.mem_cons_self _ _)
      · exact Or.inr (List.mem_cons_of_mem _ h)
    · rintro (h | h)
      · exact Or.inl (Or.inl h)
      · rcases List.mem_cons.mp h with rfl | h
        · exact Or.inl (Or.inr rfl)
        · exact Or.inr h

theorem nodup_pushAll {ps : List String} :
    ∀ {l : List String}, l.Nodup → (pushAll l ps).Nodup := by
  induction ps with
  | nil => intro l h; simpa [pushAll_nil] using h
  | cons p ps ih =>
    intro l h
    rw [pushAll_cons]
    exact ih (nodup_insertUnique h p)

theorem pushAll_extend (ps : List String) :
    ∀ l : List String, ∃ t, pushAll l ps = l ++ t := by
  induction ps with
  | nil => intro l; exact ⟨[], by simp [pushAll_nil]⟩
  | cons p ps ih =>
    intro l
    rw [pushAll_cons]
    by_cases hp : p ∈ l
    · rw [insertUnique_of_mem hp]; exact ih l
    · rw [insertUnique_of_not_mem hp]
      obtain ⟨t, ht⟩ := ih (l ++ [p])
      exact ⟨[p] ++ t, by simpa [List.append_assoc] using ht⟩

theorem lookup_cons_eq_if {α : Type} (a k : String) (b : α)
    (es : List (String × α)) :
    ((a, b) :: es).lookup k = if k = a then some b else es.lookup k := by
  rw [List.lookup_cons]
  by_cases h : k = a
  · rw [beq_iff_eq.mpr h, if_pos h]
  · rw [beq_eq_false_iff_ne.mpr h, if_neg h]

theorem lookup_map_overwrite {α : Type} (k : String) (v : α) :
    ∀ m : List (String × α), m.any (fun e => e.1 == k) = true →
      (m.map (fun e => if e.1 = k then (k, v) else e)).lookup k = some v := by
  intro m
  induction m with
  | nil => intro h; simp at h
  | cons e es ih =>
    intro h
    obtain ⟨a, b⟩ := e
    by_cases hab : a = k
    · subst hab
      simp [lookup_cons_eq_if]
    · have h' : es.any (fun e => e.1 == k) = true := by
        simp only [List.any_cons] at h
        rcases (by exact Bool.or_eq_true_iff.mp h : _ ∨ _) with h1 | h2
        · exact absurd (by simpa using h1) hab
        · exact h2
      have hk : k ≠ a := fun hk => hab hk.symm
      simp [if_neg hab, lookup_cons_eq_if, hk, ih h']

theorem lookup_map_overwrite_ne {α : Type} {k k' : String} (v : α)
    (h : k' ≠ k) :
    ∀ m : List (String × α),
      (m.map (fun e => if e.1 = k then (k, v) else e)).lookup k' =
        m.lookup k' := by
  intro m
  induction m with
  | nil => simp
  | cons e es ih =>
    obtain ⟨a, b⟩ := e
    by_cases hab : a = k
    · subst hab
      simp [lookup_cons_eq_if, h, ih]
    · simp [lookup_cons_eq_if, hab, ih]

theorem lookup_append_single {α : Type} (k : String) (v : α) :
    ∀ m : List (String × α), ¬ m.any (fun e => e.1 == k) = true →
      (m ++ [(k, v)]).lookup k = some v := by
  intro m
  induction m with
  | nil => intro _; simp [lookup_cons_eq_if]
  | cons e es ih =>
    intro h
    obtain ⟨a, b⟩ := e
    have hab : a ≠ k := by
      intro hk
      exact h (by simp [List.any_cons, hk])
    have h' : ¬ es.any (fun e => e.1 == k) = true := by
      intro hk
      simp only [List.any_cons] at h
      exact h (Bool.or_eq_true_iff.mpr (Or.inr hk))
    have hk : k ≠ a := fun hk => hab hk.symm
    rw [List.cons_append, lookup_cons_eq_if, if_neg hk]
    exact ih h'

theorem lookup_append_single_ne {α : Type} {k k' : String} (v : α)
    (h : k' ≠ k) :
    ∀ m : List (String × α), (m ++ [(k, v)]).lookup k' = m.lookup k' := by
  intro m
  induction m with
  | nil => simp [lookup_cons_eq_if, h]
  | cons e es ih =>
    obtain ⟨a, b⟩ := e
    rw [List.cons_append, lookup_cons_eq_if, lookup_cons_eq_if]
    by_cases hak : k' = a
    · rw [if_pos hak, if_pos hak]
    · rw [if_neg hak, if_neg hak]
      exact ih

theorem lookup_setAssoc_self {α : Type} (m : List (String × α)) (k : String)
    (v : α) : (setAssoc m k v).lookup k = some v := by
  unfold setAssoc
  by_cases h : m.any (fun e => e.1 == k)
  · rw [if_pos h]; exact lookup_map_overwrite k v m h
  · rw [if_neg h]; exact lookup_append_single k v m h

theorem lookup_setAssoc_ne {α : Type} (m : List (String × α)) {k k' : String}
    (v : α) (h : k' ≠ k) : (setAssoc m k v).lookup k' = m.lookup k' := by
  unfold setAssoc
  by_cases hm : m.any (fun e => e.1 == k)
  · rw [if_pos hm]; exact lookup_map_overwrite_ne v h m
  · rw [if_neg hm]; exact lookup_append_single_ne v h m

/-! ## Data model -/

/-- `DependencyType` of google-closure-deps (collaborator data model). -/
inductive DependencyType where
  | script
  | closureProvide
  | closureModule
  | es6Module
deriving DecidableEq, Repr

/-- A file node of the dependency graph: `{path, provides, requires}`
(google-closure-deps `Dependency`). -/
structure Dependency where
  type : DependencyType
  path : String
  provides : List String
  requires : List String
deriving DecidableEq, Repr

/-- A chunk declaration from the entry config:
`chunkId → {inputs: file[], deps: chunkId[]}`. -/
structure ChunkConfig where
  inputs : List String
  deps : List String
deriving DecidableEq, Repr

/-- The output of the external compiler for one chunk. -/
structure CompilerOutput where
  path : String
  src : String
  source_map : String
deriving DecidableEq, Repr

/-! ## compile (compiler.ts lines 188-215) -/

/-- `CompilerError` as constructed in compiler.ts: carries the message
(the compiler's stderr) and the original exit code. -/
structure CompilerError where
  name : String
  message : String
  exitCode : Int
deriving DecidableEq, Repr

/-- The `CompilerError` constructor: sets `name` to `"CompilerError"`. -/
def mkCompilerError (msg : String) (exitCode : Int) : CompilerError :=
  ⟨"CompilerError", msg, exitCode⟩

/-- The promise executor of `compile` (compiler.ts lines 198-205): the
compiler callback receives `(exitCode, stdout, stderr)`; the promise is
rejected with `CompilerError(stderr, exitCode)` when `stderr` is truthy
(nonempty), otherwise it resolves with `stdout`. -/
def compileRun (exitCode : Int) (stdout : String) (stderr : String) :
    Except CompilerError String :=
  if stderr ≠ "" then .error (mkCompilerError stderr exitCode)
  else .ok stdout

/-- Claim C6 (counterexample): the compiler exits nonzero (exit code 1)
without writing to stderr, yet `compile` resolves successfully, contradicting
"fails with a CompilerError ... exactly when the external compiler exits
nonzero or reports diagnostics". -/
theorem compile_nonzero_exit_counterexample :
    compileRun 1 "out" "" = .ok "out" ∧ (1 : Int) ≠ 0 := by
  constructor
  · rfl
  · decide

/-- Claim C6 (amended): `compile` fails with a `CompilerError` carrying the
compiler's stderr verbatim and the original exit code exactly when the
compiler reports diagnostics on stderr (regardless of exit code); otherwise it
resolves with stdout.  The single `compiler.run` invocation is never
retried. -/
theorem compile_error_iff_stderr (exitCode : Int) (stdout stderr : String) :
    (stderr ≠ "" → compileRun exitCode stdout stderr =
      .error (mkCompilerError stderr exitCode)) ∧
    (stderr = "" → compileRun exitCode stdout stderr = .ok stdout) ∧
    (∀ e, compileRun exitCode stdout stderr = .error e →
      e.message = stderr ∧ e.exitCode = exitCode) := by
  refine ⟨fun h => by simp [compileRun, h], fun h => by simp [compileRun, h], ?_⟩
  intro e he
  unfold compileRun at he
  by_cases h : stderr = ""
  · simp [h] at he
  · simp only [h, ne_eq, not_false_eq_true, if_true, Except.error.injEq] at he
    subst he
    exact ⟨rfl, rfl⟩

/-- Claim C6 (witness): the amended theorem applied at a concrete failing and
a concrete succeeding compiler outcome. -/
theorem compile_error_iff_stderr_witness :
    compileRun 2 "o" "boom" = .error (mkCompilerError "boom" 2) ∧
    compileRun 0 "o" "" = .ok "o" :=
  ⟨(compile_error_iff_stderr 2 "o" "boom").1 (by decide),
   (compile_error_iff_stderr 0 "o" "").2.1 rfl⟩

/-! ## Chunk DAG (dag.ts)

Modelled from the spec: dag.ts (the `Dag` class with `getSortedIds` and
`getLcaNode`) is not among the given sources.  Following spec section 4.1, the
DAG is the child-to-parents adjacency (`chunkId → parentIds`, spec section 3
`Chunk.parentIds` as declared by `deps` in the chunk config), ancestor
closures are computed as explicit sets inclusive of self, `getLcaNode`
intersects the ancestor closures of its input ids and picks, among the
elements with no strict descendant in the intersection (maximal topological
depth), the one appearing latest in `getSortedIds()` order. -/

/-- Parent chunk ids of a chunk in the DAG adjacency. -/
def parentsOf (dag : List (String × List String)) (id : String) : List String :=
  (dag.lookup id).getD []

/-- Modelled from the spec: the ancestor closure of a chunk, inclusive of
self, computed by iterating the parent edges; `fuel` bounds the iteration
depth (the number of chunks suffices on an acyclic DAG). -/
def ancClosure (dag : List (String × List String)) :
    Nat → String → List String
  | 0, id => [id]
  | n + 1, id =>
    (parentsOf dag id).foldl (fun acc p => pushAll acc (ancClosure dag n p))
      [id]

/-- `anc` is an ancestor-or-self of `des` in the chunk DAG. -/
def isAncestorOrSelf (dag : List (String × List String))
    (anc des : String) : Bool :=
  (ancClosure dag dag.length des).contains anc

/-- Modelled from the spec: `Dag.getLcaNode` (spec section 4.1): intersect
the ancestor closures (inclusive of self) of the input ids, keep the elements
with no strict descendant also in the intersection, and resolve ties by
picking the one appearing latest in sorted order. -/
def getLcaNode (dag : List (String × List String)) (sortedIds : List String)
    (ids : List String) : Option String :=
  let fuel := dag.length
  let inter := sortedIds.filter
    (fun c => ids.all (fun i => (ancClosure dag fuel i).contains c))
  let maximal := inter.filter
    (fun c => ! inter.any
      (fun c2 => c2 != c && (ancClosure dag fuel c2).contains c))
  maximal.getLast?

/-! ## Splitting engine (compiler.ts lines 315-361) -/

inductive SplitError where
  /-- `modules[chunkId]` is undefined (would be a TypeError in the source). -/
  | noChunkConfig (id : String)
  /-- assertNonNullable failure in `findTransitiveDeps`:
  "entryConfig.paths does not include the inputs". -/
  | missingEntryPoint (input : String)
  /-- `dag.getLcaNode` produced no chunk. -/
  | noLcaNode (path : String)
  /-- assertNonNullable failure in `splitDepsIntoChunks`: the placement chunk
  is not a key of `chunkToInputPathSet`. -/
  | unknownChunk (id : String)
deriving DecidableEq, Repr

/-- The chunk ids whose transitive dep path set contains `p`
(`chunkIdsWithDep` accumulated in compiler.ts lines 350-355). -/
def chunkIdsWithDep (table : List (String × List String)) (p : String) :
    List String :=
  (table.filter (fun e => e.2.contains p)).map Prod.fst

/-- `dag.getLcaNode(...chunkIdsWithDep)` (compiler.ts line 356): the
placement chunk of a dep path. -/
def placeOf (dag : List (String × List String)) (sorted : List String)
    (table : List (String × List String)) (p : String) : Option String :=
  getLcaNode dag sorted (chunkIdsWithDep table p)

/-- Add `p` to the input path set of chunk `c`
(compiler.ts line 357, `Set.add`). -/
def addToChunk (acc : List (String × List String)) (c p : String) :
    List (String × List String) :=
  acc.map (fun e => if e.1 = c then (e.1, insertUnique e.2 p) else e)

/-- The nested loops of `splitDepsIntoChunks` (compiler.ts lines 348-359),
flattened: process every dep path of every chunk's transitive set in
iteration order, adding each to its placement chunk's input path set. -/
def processPaths (dag : List (String × List String)) (sorted : List String)
    (table : List (String × List String)) :
    List String → List (String × List String) →
      Except SplitError (List (String × List String))
  | [], acc => .ok acc
  | p :: ps, acc =>
    match placeOf dag sorted table p with
    | none => .error (.noLcaNode p)
    | some c =>
      if acc.any (fun e => e.1 == c) then
        processPaths dag sorted table ps (addToChunk acc c p)
      else
        .error (.unknownChunk c)

/-- `splitDepsIntoChunks` (compiler.ts lines 339-361): initialize an empty
input path set per sorted chunk id, then place every transitive dep path. -/
def splitDepsIntoChunks (sorted : List String)
    (table : List (String × List String))
    (dag : List (String × List String)) :
    Except SplitError (List (String × List String)) :=
  processPaths dag sorted table (table.map Prod.snd).flatten
    (sorted.map (fun id => (id, [])))

/-- `findTransitiveDeps` (compiler.ts lines 315-337): for each chunk in
sorted order, resolve its declared entry files against the dependency list
(assertNonNullable on a missing path) and take the dependency-graph closure
of the entry points; `order` is the google-closure-deps `Graph.order`
collaborator, abstracted as a function from entry paths to the topologically
ordered closure paths. -/
def findTransitiveDeps (order : List String → List String)
    (dependencies : List Dependency)
    (modules : List (String × ChunkConfig)) :
    List String → Except SplitError (List (String × List String))
  | [] => .ok []
  | chunkId :: rest =>
    match modules.lookup chunkId with
    | none => .error (.noChunkConfig chunkId)
    | some cfg =>
      match cfg.inputs.find?
          (fun i => ! (dependencies.map Dependency.path).contains i) with
      | some i => .error (.missingEntryPoint i)
      | none =>
        match findTransitiveDeps order dependencies modules rest with
        | .error e => .error e
        | .ok tail => .ok ((chunkId, pushAll [] (order cfg.inputs)) :: tail)

/-- The splitting part of `createCompilerOptionsForChunks` (compiler.ts
lines 243-246): compute the transitive dep sets, then split them into
chunks. -/
def splitPipeline (order : List String → List String)
    (dag : List (String × List String))
    (dependencies : List Dependency)
    (modules : List (String × ChunkConfig)) (sorted : List String) :
    Except SplitError (List (String × List String)) :=
  match findTransitiveDeps order dependencies modules sorted with
  | .error e => .error e
  | .ok table => splitDepsIntoChunks sorted table dag

/-- Every declared entry file of every chunk has a node in the dependency
graph. -/
def allInputsPresent (sorted : List String)
    (modules : List (String × ChunkConfig))
    (dependencies : List Dependency) : Bool :=
  sorted.all (fun c =>
    match modules.lookup c with
    | none => true
    | some cfg =>
      cfg.inputs.all (fun i => (dependencies.map Dependency.path).contains i))

/-- The direct dependencies of the file at path `f`: the paths of the nodes
providing a symbol that `f` requires (the provide/require edges of the
dependency graph, spec section 3 `FileNode`). -/
def directDepsOf (files : List Dependency) (f : String) : List String :=
  ((files.filter (fun n => n.path == f)).map Dependency.requires).flatten.map
    (fun s => (files.filter (fun n => n.provides.contains s)).map
      Dependency.path) |>.flatten

/-! ## Properties of the splitting engine -/

theorem getLcaNode_spec {dag : List (String × List String)}
    {sorted ids : List String} {c : String}
    (h : getLcaNode dag sorted ids = some c) :
    c ∈ sorted ∧ ∀ i ∈ ids, isAncestorOrSelf dag c i = true := by
  simp only [getLcaNode] at h
  have hc := List.mem_of_mem_getLast? (Option.mem_def.mpr h)
  have h1 := (List.mem_filter.mp hc).1
  obtain ⟨h2, h3⟩ := List.mem_filter.mp h1
  refine ⟨h2, ?_⟩
  intro i hi
  exact List.all_eq_true.mp h3 i hi

theorem forall₂_mem_right {α β : Type} {R : α → β → Prop} :
    ∀ {l : List α} {l' : List β}, List.Forall₂ R l l' →
      ∀ b ∈ l', ∃ a ∈ l, R a b := by
  intro l l' h
  induction h with
  | nil => intro b hb; cases hb
  | cons hr _ ih =>
    intro b hb
    rcases List.mem_cons.mp hb with rfl | hb
    · exact ⟨_, List.mem_cons_self _ _, hr⟩
    · obtain ⟨a, ha, hab⟩ := ih b hb
      exact ⟨a, List.mem_cons_of_mem _ ha, hab⟩

theorem addToChunk_keys (acc : List (String × List String)) (c p : String) :
    (addToChunk acc c p).map Prod.fst = acc.map Prod.fst := by
  unfold addToChunk
  rw [List.map_map]
  refine List.map_congr_left ?_
  intro e _
  by_cases h : e.1 = c <;> simp [h]

/-- Characterization of `processPaths`: on success, each accumulator entry
keeps its key and its path set is extended, in iteration order, with exactly
the processed paths placed into that key's chunk. -/
theorem processPaths_char (dag : List (String × List String))
    (sorted : List String) (table : List (String × List String)) :
    ∀ (ps : List String) (acc res : List (String × List String)),
      processPaths dag sorted table ps acc = .ok res →
      List.Forall₂ (fun e e' : String × List String =>
        e'.1 = e.1 ∧
        e'.2 = pushAll e.2 (ps.filter
          (fun p => placeOf dag sorted table p == some e.1))) acc res := by
  intro ps
  induction ps with
  | nil =>
    intro acc res h
    simp only [processPaths, Except.ok.injEq] at h
    subst h
    refine List.forall₂_same.mpr ?_
    intro e _
    exact ⟨rfl, by simp [pushAll_nil]⟩
  | cons p ps ih =>
    intro acc res h
    simp only [processPaths] at h
    split at h
    · cases h
    next c hplace =>
      split at h
      next hkey =>
        have h2 := ih (addToChunk acc c p) res h
        unfold addToChunk at h2
        have h3 := List.forall₂_map_left_iff.mp h2
        refine h3.imp ?_
        rintro e e' ⟨hk, hv⟩
        by_cases hec : e.1 = c
        · rw [if_pos hec] at hk hv
          refine ⟨hk, ?_⟩
          rw [hv, List.filter_cons, if_pos ?_]
          · exact (pushAll_cons _ _ _).symm
          · simp [hplace, hec]
        · rw [if_neg hec] at hk hv
          refine ⟨hk, ?_⟩
          rw [hv, List.filter_cons, if_neg ?_]
          simp only [hplace, beq_iff_eq, Option.some.injEq]
          exact fun hc => hec hc.symm
      next hkey => cases h

/-- On success, every processed path has a placement chunk whose key exists
in the accumulator. -/
theorem processPaths_place (dag : List (String × List String))
    (sorted : List String) (table : List (String × List String)) :
    ∀ (ps : List String) (acc res : List (String × List String)),
      processPaths dag sorted table ps acc = .ok res →
      ∀ p ∈ ps, ∃ c, placeOf dag sorted table p = some c ∧
        c ∈ acc.map Prod.fst := by
  intro ps
  induction ps with
  | nil => intro acc res _ p hp; cases hp
  | cons q ps ih =>
    intro acc res h p hp
    simp only [processPaths] at h
    split at h
    · cases h
    next c hplace =>
      split at h
      next hkey =>
        rcases List.mem_cons.mp hp with rfl | hp
        · refine ⟨c, hplace, ?_⟩
          rcases List.any_eq_true.mp hkey with ⟨e, he, hec⟩
          exact List.mem_map.mpr ⟨e, he, (by simpa using hec : e.1 = c)⟩
        · obtain ⟨c', hc', hmem⟩ := ih (addToChunk acc c q) res h p hp
          rw [addToChunk_keys] at hmem
          exact ⟨c', hc', hmem⟩
      next hkey => cases h

/-- All dep paths of all chunks, in iteration order. -/
def allDepPaths (table : List (String × List String)) : List String :=
  (table.map Prod.snd).flatten

/-- Characterization of `splitDepsIntoChunks`: on success the result pairs
each sorted chunk id, in order, with the insertion-ordered set of paths
placed into that chunk. -/
theorem splitDeps_char {sorted : List String}
    {table dag res : List (String × List String)}
    (h : splitDepsIntoChunks sorted table dag = .ok res) :
    List.Forall₂ (fun (id : String) (e' : String × List String) =>
      e'.1 = id ∧
      e'.2 = pushAll [] ((allDepPaths table).filter
        (fun p => placeOf dag sorted table p == some id))) sorted res := by
  unfold splitDepsIntoChunks at h
  have h1 := processPaths_char dag sorted table _ _ _ h
  have h2 := List.forall₂_map_left_iff.mp h1
  simpa [allDepPaths] using h2

theorem splitDeps_place {sorted : List String}
    {table dag res : List (String × List String)}
    (h : splitDepsIntoChunks sorted table dag = .ok res) :
    ∀ p ∈ allDepPaths table, ∃ c, placeOf dag sorted table p = some c ∧
      c ∈ sorted := by
  unfold splitDepsIntoChunks at h
  intro p hp
  obtain ⟨c, hc, hmem⟩ := processPaths_place dag sorted table _ _ _ h p hp
  rw [List.map_map] at hmem
  refine ⟨c, hc, ?_⟩
  simpa using hmem

theorem mem_allDepPaths {table : List (String × List String)} {p : String} :
    p ∈ allDepPaths table ↔ ∃ e ∈ table, p ∈ e.2 := by
  simp only [allDepPaths, List.mem_flatten, List.mem_map]
  constructor
  · rintro ⟨l, ⟨e, he, rfl⟩, hp⟩
    exact ⟨e, he, hp⟩
  · rintro ⟨e, he, hp⟩
    exact ⟨e.2, ⟨e, he, rfl⟩, hp⟩

/-- Membership in a chunk's final path set: exactly the dep paths placed into
that chunk. -/
theorem mem_chunk_iff {dag table : List (String × List String)}
    {sortedAll : List String} {p id : String} :
    p ∈ pushAll [] ((allDepPaths table).filter
        (fun q => placeOf dag sortedAll table q == some id)) ↔
      p ∈ allDepPaths table ∧ placeOf dag sortedAll table p = some id := by
  rw [mem_pushAll]
  simp [List.mem_filter]

theorem count_zero_of_unplaced {dag table : List (String × List String)}
    {sortedAll : List String} {p c : String}
    (hplace : placeOf dag sortedAll table p = some c) :
    ∀ {ids : List String} {res : List (String × List String)},
      List.Forall₂ (fun (id : String) (e' : String × List String) =>
        e'.1 = id ∧
        e'.2 = pushAll [] ((allDepPaths table).filter
          (fun q => placeOf dag sortedAll table q == some id))) ids res →
      c ∉ ids → ∀ e ∈ res, e.2.count p = 0 := by
  intro ids res hf hc e he
  obtain ⟨id, hid, hrel⟩ := forall₂_mem_right hf e he
  rw [List.count_eq_zero]
  intro hpe
  rw [hrel.2] at hpe
  have h2 := (mem_chunk_iff.mp hpe).2
  rw [hplace] at h2
  exact hc (by cases h2; exact hid)

theorem count_sum_one {dag table : List (String × List String)}
    {sortedAll : List String} {p c : String}
    (hplace : placeOf dag sortedAll table p = some c)
    (hpP : p ∈ allDepPaths table) :
    ∀ {ids : List String} {res : List (String × List String)},
      List.Forall₂ (fun (id : String) (e' : String × List String) =>
        e'.1 = id ∧
        e'.2 = pushAll [] ((allDepPaths table).filter
          (fun q => placeOf dag sortedAll table q == some id))) ids res →
      ids.Nodup → c ∈ ids →
      (res.map (fun e => e.2.count p)).sum = 1 := by
  intro ids res hf
  induction hf with
  | nil => intro _ hc; cases hc
  | @cons id e' ids' res' hr hrest ih =>
    intro hnd hc
    have hnd' := List.nodup_cons.mp hnd
    rcases List.mem_cons.mp hc with rfl | hc'
    · have h1 : e'.2.count p = 1 := by
        refine List.count_eq_one_of_mem ?_ ?_
        · rw [hr.2]; exact nodup_pushAll List.nodup_nil
        · rw [hr.2, mem_chunk_iff]; exact ⟨hpP, hplace⟩
      have h0 : ∀ e ∈ res', e.2.count p = 0 :=
        count_zero_of_unplaced hplace hrest hnd'.1
      have hsum : (res'.map (fun e => e.2.count p)).sum = 0 := by
        refine List.sum_eq_zero ?_
        intro x hx
        obtain ⟨e, he, rfl⟩ := List.mem_map.mp hx
        exact h0 e he
      simp [h1, hsum]
    · have hidc : id ≠ c := fun h => (h ▸ hnd'.1) hc'
      have h0 : e'.2.count p = 0 := by
        rw [List.count_eq_zero]
        intro hpe
        rw [hr.2] at hpe
        have h2 := (mem_chunk_iff.mp hpe).2
        rw [hplace] at h2
        exact hidc (by cases h2; rfl)
      simp [h0, ih hnd'.2 hc']

/-- Claim C2: for every chunk DAG and dependency graph, the splitting engine
assigns every file appearing in any chunk's transitive closure to exactly one
chunk's output list (the lists form a partition with no duplicates), and the
chunk a file is assigned to is an ancestor-or-self of every chunk whose
closure contains that file. -/
theorem split_partition_and_ancestor
    {sorted : List String} {table dag res : List (String × List String)}
    (hnd : sorted.Nodup)
    (hok : splitDepsIntoChunks sorted table dag = .ok res) :
    ∀ p : String, (∃ e ∈ table, p ∈ e.2) →
      (res.map (fun e => e.2.count p)).sum = 1 ∧
      ∀ e ∈ res, p ∈ e.2 → ∀ c ∈ chunkIdsWithDep table p,
        isAncestorOrSelf dag e.1 c = true := by
  intro p hp
  have hpP : p ∈ allDepPaths table := mem_allDepPaths.mpr hp
  obtain ⟨c, hplace, hcs⟩ := splitDeps_place hok p hpP
  have hchar := splitDeps_char hok
  constructor
  · exact count_sum_one hplace hpP hchar hnd hcs
  · intro e he hpe c' hc'
    obtain ⟨id, _, hrel⟩ := forall₂_mem_right hchar e he
    rw [hrel.2] at hpe
    have h2 := (mem_chunk_iff.mp hpe).2
    rw [hrel.1]
    have hlca : getLcaNode dag sorted (chunkIdsWithDep table p) = some id := h2
    exact (getLcaNode_spec hlca).2 c' hc'

/-- Claim C2 (witness): spec Scenario A — root chunk `app` with children `a`
and `b`; file `x` is required by both `a` and `b` only, and is placed exactly
once, in `app`, their LCA. -/
theorem split_partition_and_ancestor_witness :
    (["app", "a", "b"] : List String).Nodup ∧
    splitDepsIntoChunks ["app", "a", "b"]
      [("app", ["base"]), ("a", ["base", "x", "fa"]), ("b", ["base", "x", "fb"])]
      [("app", []), ("a", ["app"]), ("b", ["app"])] =
      .ok [("app", ["base", "x"]), ("a", ["fa"]), ("b", ["fb"])] ∧
    ((([("app", ["base", "x"]), ("a", ["fa"]), ("b", ["fb"])]
        : List (String × List String)).map (fun e => e.2.count "x")).sum = 1 ∧
     ∀ e ∈ ([("app", ["base", "x"]), ("a", ["fa"]), ("b", ["fb"])]
        : List (String × List String)), "x" ∈ e.2 →
       ∀ c ∈ chunkIdsWithDep
           [("app", ["base"]), ("a", ["base", "x", "fa"]),
            ("b", ["base", "x", "fb"])] "x",
         isAncestorOrSelf [("app", []), ("a", ["app"]), ("b", ["app"])]
           e.1 c = true) :=
  ⟨by decide, rfl,
   @split_partition_and_ancestor ["app", "a", "b"]
     [("app", ["base"]), ("a", ["base", "x", "fa"]), ("b", ["base", "x", "fb"])]
     [("app", []), ("a", ["app"]), ("b", ["app"])]
     [("app", ["base", "x"]), ("a", ["fa"]), ("b", ["fb"])]
     (by decide) rfl "x" (by decide)⟩

/-- Claim C5: running the splitting engine twice on identical inputs (same
sorted chunk ids, same dependency list, same module config) produces
identical per-chunk file lists in identical order.  Both phases of the engine
are embedded as pure functions of their inputs — the insertion-order
iteration of the JS `Map`/`Set` intermediates is deterministic — so the two
runs are definitionally equal. -/
theorem splitting_engine_deterministic
    (order : List String → List String)
    (dag : List (String × List String)) (dependencies : List Dependency)
    (modules : List (String × ChunkConfig)) (sorted : List String)
    (table : List (String × List String)) :
    findTransitiveDeps order dependencies modules sorted =
      findTransitiveDeps order dependencies modules sorted ∧
    splitDepsIntoChunks sorted table dag =
      splitDepsIntoChunks sorted table dag :=
  ⟨rfl, rfl⟩

/-! ## The in-chunk ordering invariant (claim C3) -/

/-- Some occurrence of `d` is followed, strictly later, by an occurrence of
`f`. -/
def Before (l : List String) (d f : String) : Prop :=
  ∃ l1 l2, l = l1 ++ d :: l2 ∧ f ∈ l2

theorem before_pushAll_of_mem {l ps : List String} {d f : String}
    (hd : d ∈ l) (hf : f ∉ l) (hfp : f ∈ ps) :
    Before (pushAll l ps) d f := by
  obtain ⟨t, ht⟩ := pushAll_extend ps l
  have hft : f ∈ t := by
    have hmem : f ∈ pushAll l ps := mem_pushAll.mpr (Or.inr hfp)
    rw [ht] at hmem
    rcases List.mem_append.mp hmem with h | h
    · exact absurd h hf
    · exact h
  obtain ⟨s, t', hl⟩ := List.append_of_mem hd
  refine ⟨s, t' ++ t, ?_, List.mem_append.mpr (Or.inr hft)⟩
  rw [ht, hl]
  simp

theorem before_pushAll_split {l0 ps1 ps2 : List String} {d f : String}
    (hfl : f ∉ l0) (hfp1 : f ∉ ps1) (hdf : d ≠ f) (hf2 : f ∈ ps2) :
    Before (pushAll l0 (ps1 ++ d :: ps2)) d f := by
  have heq : ps1 ++ d :: ps2 = (ps1 ++ [d]) ++ ps2 := by simp
  rw [heq, pushAll_append]
  refine before_pushAll_of_mem (mem_pushAll.mpr (Or.inr (by simp))) ?_ hf2
  intro hmem
  rcases mem_pushAll.mp hmem with h | h
  · exact hfl h
  · rcases List.mem_append.mp h with h | h
    · exact hfp1 h
    · exact hdf ((List.mem_singleton.mp h).symm)

theorem before_lt_positions {l : List String} {d f : String}
    (hb : Before l d f) (hnd : l.Nodup) :
    ∀ i : Fin l.length, l.get i = f →
      ∀ j : Fin l.length, l.get j = d → (j : Nat) < (i : Nat) := by
  obtain ⟨l1, l2, hl, hf2⟩ := hb
  have hnd' := List.nodup_append.mp (hl ▸ hnd)
  have hdl1 : d ∉ l1 := fun h => hnd'.2.2 h (List.mem_cons_self _ _)
  have hfl1 : f ∉ l1 := fun h => hnd'.2.2 h (List.mem_cons_of_mem _ hf2)
  have hfd : f ≠ d := by
    intro h
    subst h
    exact (List.nodup_cons.mp hnd'.2.1).1 hf2
  have hidxd : l.indexOf d = l1.length := by
    rw [hl, List.indexOf_append_of_not_mem hdl1, List.indexOf_cons_self]
    omega
  have hidxf : l.indexOf f = l1.length + 1 + l2.indexOf f := by
    rw [hl, List.indexOf_append_of_not_mem hfl1,
      List.indexOf_cons_ne _ (Ne.symm hfd)]
    omega
  intro i hif j hjd
  have hdmem : d ∈ l := by rw [hl]; simp
  have hfmem : f ∈ l := by
    rw [hl]
    exact List.mem_append.mpr (Or.inr (List.mem_cons_of_mem _ hf2))
  have hdlt : l.indexOf d < l.length := List.indexOf_lt_length.mpr hdmem
  have hflt : l.indexOf f < l.length := List.indexOf_lt_length.mpr hfmem
  have hjd' : j = ⟨l.indexOf d, hdlt⟩ :=
    hnd.get_inj_iff.mp (hjd.trans (List.indexOf_get hdlt).symm)
  have hif' : i = ⟨l.indexOf f, hflt⟩ :=
    hnd.get_inj_iff.mp (hif.trans (List.indexOf_get hflt).symm)
  rw [hjd', hif']
  show l.indexOf d < l.indexOf f
  rw [hidxd, hidxf]
  omega

theorem indexOf_lt_split {L : List String} {d f : String}
    (hd : d ∈ L) (hlt : L.indexOf d < L.indexOf f) :
    d ≠ f ∧ ∃ L1 L2, L = L1 ++ d :: L2 ∧ f ∉ L1 := by
  induction L with
  | nil => cases hd
  | cons x xs ih =>
    by_cases hxd : x = d
    · subst hxd
      have hxf : x ≠ f := by
        intro h
        subst h
        simp [List.indexOf_cons_self] at hlt
      exact ⟨hxf, [], xs, rfl, by simp⟩
    · have hd' : d ∈ xs := by
        rcases List.mem_cons.mp hd with h | h
        · exact absurd h.symm hxd
        · exact h
      have hxf : x ≠ f := by
        intro h
        subst h
        rw [List.indexOf_cons_self] at hlt
        omega
      have hlt' : xs.indexOf d < xs.indexOf f := by
        rw [List.indexOf_cons_ne _ hxd, List.indexOf_cons_ne _ hxf] at hlt
        omega
      obtain ⟨hne, L1, L2, heq, hfL1⟩ := ih hd' hlt'
      refine ⟨hne, x :: L1, L2, by rw [heq]; simp, ?_⟩
      intro hmem
      rcases List.mem_cons.mp hmem with h | h
      · exact hxf h.symm
      · exact hfL1 h

theorem first_entry_with_mem {table : List (String × List String)}
    {f : String} (h : ∃ e ∈ table, f ∈ e.2) :
    ∃ T1 en T2, table = T1 ++ en :: T2 ∧ f ∈ en.2 ∧
      ∀ e' ∈ T1, f ∉ e'.2 := by
  induction table with
  | nil => obtain ⟨e, he, _⟩ := h; cases he
  | cons e0 rest ih =>
    by_cases h0 : f ∈ e0.2
    · exact ⟨[], e0, rest, rfl, h0, by simp⟩
    · have h' : ∃ e ∈ rest, f ∈ e.2 := by
        obtain ⟨e, he, hf⟩ := h
        rcases List.mem_cons.mp he with rfl | he
        · exact absurd hf h0
        · exact ⟨e, he, hf⟩
      obtain ⟨T1, en, T2, heq, hfen, hT1⟩ := ih h'
      refine ⟨e0 :: T1, en, T2, by rw [heq]; simp, hfen, ?_⟩
      intro e' he'
      rcases List.mem_cons.mp he' with rfl | he'
      · exact h0
      · exact hT1 e' he'

theorem allDepPaths_decomp (T1 T2 : List (String × List String))
    (en : String × List String) :
    allDepPaths (T1 ++ en :: T2) =
      allDepPaths T1 ++ en.2 ++ allDepPaths T2 := by
  simp [allDepPaths, List.append_assoc]

/-- Claim C3: for every chunk `C` produced by the splitting engine, and for
every file `f` at position `i` in `C`'s output list, every direct dependency
of `f` that is also assigned to `C` appears at a position strictly less than
`i`.  The hypotheses are the contract of the dependency-graph collaborator:
each chunk's transitive dep list is closed under direct dependencies and
topologically ordered (dependencies strictly before dependents). -/
theorem chunk_list_topological_order
    {files : List Dependency} {sorted : List String}
    {table dag res : List (String × List String)}
    (hClosed : ∀ e ∈ table, ∀ g ∈ e.2, ∀ d ∈ directDepsOf files g, d ∈ e.2)
    (hTopo : ∀ e ∈ table, ∀ g ∈ e.2, ∀ d ∈ directDepsOf files g,
      e.2.indexOf d < e.2.indexOf g)
    (hok : splitDepsIntoChunks sorted table dag = .ok res) :
    ∀ e ∈ res, ∀ f, ∀ i : Fin e.2.length, e.2.get i = f →
      ∀ d ∈ directDepsOf files f, d ∈ e.2 →
        ∀ j : Fin e.2.length, e.2.get j = d → (j : Nat) < (i : Nat) := by
  intro e he f i hif d hd hdC j hjd
  obtain ⟨id, _, hrel⟩ := forall₂_mem_right (splitDeps_char hok) e he
  have hfC : f ∈ e.2 := by rw [← hif]; exact List.get_mem e.2 i.1 i.2
  have hfC' := hrel.2 ▸ hfC
  obtain ⟨hfP, hplacef⟩ := mem_chunk_iff.mp hfC'
  obtain ⟨hdP, hplaced⟩ := mem_chunk_iff.mp (hrel.2 ▸ hdC)
  obtain ⟨T1, en, T2, htab, hfen, hT1⟩ :=
    first_entry_with_mem (mem_allDepPaths.mp hfP)
  have hen : en ∈ table := htab ▸ List.mem_append.mpr
    (Or.inr (List.mem_cons_self _ _))
  have hden : d ∈ en.2 := hClosed en hen f hfen d hd
  have hltidx := hTopo en hen f hfen d hd
  obtain ⟨hdf, L1, L2, hensplit, hfL1⟩ := indexOf_lt_split hden hltidx
  have hfL2 : f ∈ L2 := by
    have := hensplit ▸ hfen
    rcases List.mem_append.mp this with h | h
    · exact absurd h hfL1
    · rcases List.mem_cons.mp h with h | h
      · exact absurd h.symm hdf
      · exact h
  have hfA : f ∉ allDepPaths T1 := by
    intro hmem
    obtain ⟨e', he', hf'⟩ := mem_allDepPaths.mp hmem
    exact hT1 e' he' hf'
  -- decompose the full path stream around this occurrence of d
  have hP : allDepPaths table =
      (allDepPaths T1 ++ L1) ++ d :: (L2 ++ allDepPaths T2) := by
    rw [htab, allDepPaths_decomp, hensplit]
    simp
  set q : String → Bool :=
    fun p => placeOf dag sorted table p == some id with hq
  have hqd : q d = true := by simp [hq, hplaced]
  have hqf : q f = true := by simp [hq, hplacef]
  have hfilter : (allDepPaths table).filter q =
      ((allDepPaths T1 ++ L1).filter q) ++
        d :: ((L2 ++ allDepPaths T2).filter q) := by
    rw [hP, List.filter_append, List.filter_cons, if_pos hqd]
  have hb : Before (pushAll [] ((allDepPaths table).filter q)) d f := by
    rw [hfilter]
    refine before_pushAll_split (by simp) ?_ hdf ?_
    · intro hmem
      rcases List.mem_append.mp (List.mem_of_mem_filter hmem) with h | h
      · exact hfA h
      · exact hfL1 h
    · exact List.mem_filter.mpr ⟨List.mem_append.mpr (Or.inl hfL2), hqf⟩
  have hbC : Before e.2 d f := by rw [hrel.2]; exact hb
  have hndC : e.2.Nodup := by
    rw [hrel.2]
    exact nodup_pushAll List.nodup_nil
  exact before_lt_positions hbC hndC i hif j hjd

/-- Claim C3 (witness): a single chunk whose closure is `[base, fa]`, where
`fa` requires the symbol `b` provided by `base`; in the produced chunk list
`base` precedes `fa`. -/
theorem chunk_list_topological_order_witness :
    (∀ e ∈ ([("app", ["base", "fa"])] : List (String × List String)),
      ∀ g ∈ e.2, ∀ d ∈ directDepsOf
        [Dependency.mk .closureProvide "base" ["b"] [],
         Dependency.mk .closureProvide "fa" ["a"] ["b"]] g, d ∈ e.2) ∧
    (∀ e ∈ ([("app", ["base", "fa"])] : List (String × List String)),
      ∀ g ∈ e.2, ∀ d ∈ directDepsOf
        [Dependency.mk .closureProvide "base" ["b"] [],
         Dependency.mk .closureProvide "fa" ["a"] ["b"]] g,
        e.2.indexOf d < e.2.indexOf g) ∧
    (∀ e ∈ ([("app", ["base", "fa"])] : List (String × List String)),
      ∀ f, ∀ i : Fin e.2.length, e.2.get i = f →
      ∀ d ∈ directDepsOf
        [Dependency.mk .closureProvide "base" ["b"] [],
         Dependency.mk .closureProvide "fa" ["a"] ["b"]] f, d ∈ e.2 →
        ∀ j : Fin e.2.length, e.2.get j = d → (j : Nat) < (i : Nat)) :=
  ⟨by decide, by decide,
   @chunk_list_topological_order
     [Dependency.mk .closureProvide "base" ["b"] [],
      Dependency.mk .closureProvide "fa" ["a"] ["b"]]
     ["app"] [("app", ["base", "fa"])] [("app", [])]
     [("app", ["base", "fa"])] (by decide) (by decide) rfl⟩

theorem findTransitiveDeps_ok_allPresent
    {order : List String → List String} {dependencies : List Dependency}
    {modules : List (String × ChunkConfig)} :
    ∀ {sorted : List String} {res},
      findTransitiveDeps order dependencies modules sorted = .ok res →
      allInputsPresent sorted modules dependencies = true := by
  intro sorted
  induction sorted with
  | nil => intro res _; rfl
  | cons c rest ih =>
    intro res h
    simp only [findTransitiveDeps] at h
    split at h
    · cases h
    next cfg hcfg =>
      split at h
      · cases h
      next hfind =>
        split at h
        · cases h
        next tail htail =>
          have hAll : cfg.inputs.all
              (fun i => (dependencies.map Dependency.path).contains i) := by
            rw [List.all_eq_true]
            intro i hi
            have h2 := List.find?_eq_none.mp hfind i hi
            simpa using h2
          simp only [allInputsPresent, List.all_cons, hcfg, hAll,
            Bool.true_and]
          simpa [allInputsPresent] using ih htail

theorem findTransitiveDeps_error_of_missing
    (order : List String → List String) {dependencies : List Dependency}
    {modules : List (String × ChunkConfig)} :
    ∀ {sorted : List String},
      (∀ c ∈ sorted, (modules.lookup c).isSome) →
      allInputsPresent sorted modules dependencies = false →
      ∃ i, findTransitiveDeps order dependencies modules sorted =
        .error (.missingEntryPoint i) := by
  intro sorted
  induction sorted with
  | nil => intro _ h; simp [allInputsPresent] at h
  | cons c rest ih =>
    intro hM h
    obtain ⟨cfg, hcfg⟩ := Option.isSome_iff_exists.mp
      (hM c (List.mem_cons_self _ _))
    by_cases hmiss : cfg.inputs.all
        (fun i => (dependencies.map Dependency.path).contains i)
    · have hfind : cfg.inputs.find?
          (fun i => ! (dependencies.map Dependency.path).contains i)
          = none := by
        rw [List.find?_eq_none]
        intro i hi
        simpa using List.all_eq_true.mp hmiss i hi
      have hrest : allInputsPresent rest modules dependencies = false := by
        simp only [allInputsPresent, List.all_cons, hcfg, hmiss,
          Bool.true_and] at h
        exact h
      obtain ⟨i, hi⟩ := ih (fun c' hc' => hM c' (List.mem_cons_of_mem _ hc'))
        hrest
      refine ⟨i, ?_⟩
      simp only [findTransitiveDeps, hcfg, hfind, hi]
    · have hex : ∃ i, i ∈ cfg.inputs ∧
          (! (dependencies.map Dependency.path).contains i) = true := by
        rw [List.all_eq_true] at hmiss
        push_neg at hmiss
        obtain ⟨i, hi, hni⟩ := hmiss
        exact ⟨i, hi, by simpa using hni⟩
      have hsome : (cfg.inputs.find?
          (fun i => ! (dependencies.map Dependency.path).contains i)).isSome :=
        List.find?_isSome.mpr hex
      obtain ⟨i, hi⟩ := Option.isSome_iff_exists.mp hsome
      exact ⟨i, by simp only [findTransitiveDeps, hcfg, hi]⟩

/-- Claim C7: for every chunk whose declared entry file has no corresponding
node in the dependency graph, the splitting engine fails with the
missing-entry-point error before producing any placement; placement succeeds
only when every declared entry file of every chunk is present in the
graph. -/
theorem missing_entry_point_behavior
    (order : List String → List String)
    (dag : List (String × List String)) (dependencies : List Dependency)
    (modules : List (String × ChunkConfig)) (sorted : List String)
    (hM : ∀ c ∈ sorted, (modules.lookup c).isSome) :
    (allInputsPresent sorted modules dependencies = false →
      ∃ i, splitPipeline order dag dependencies modules sorted =
        .error (.missingEntryPoint i)) ∧
    (∀ res, splitPipeline order dag dependencies modules sorted = .ok res →
      allInputsPresent sorted modules dependencies = true) := by
  constructor
  · intro h
    obtain ⟨i, hi⟩ := findTransitiveDeps_error_of_missing order hM h
    exact ⟨i, by simp only [splitPipeline, hi]⟩
  · intro res h
    unfold splitPipeline at h
    split at h
    · cases h
    next table htable => exact findTransitiveDeps_ok_allPresent htable

/-- Claim C7 (witness): a single chunk `app` declaring entry file `m` while
the dependency graph is empty — the pipeline fails with the
missing-entry-point error; and conversely a present entry file compiles. -/
theorem missing_entry_point_behavior_witness :
    (∀ c ∈ ["app"],
      (([("app", ChunkConfig.mk ["m"] [])].lookup c).isSome)) ∧
    ((allInputsPresent ["app"] [("app", ChunkConfig.mk ["m"] [])] [] = false →
      ∃ i, splitPipeline (fun _ => []) [("app", [])] []
        [("app", ChunkConfig.mk ["m"] [])] ["app"] =
        .error (.missingEntryPoint i)) ∧
     (∀ res, splitPipeline (fun _ => []) [("app", [])] []
        [("app", ChunkConfig.mk ["m"] [])] ["app"] = .ok res →
      allInputsPresent ["app"] [("app", ChunkConfig.mk ["m"] [])] [] = true)) :=
  ⟨by decide,
   missing_entry_point_behavior (fun _ => []) [("app", [])] []
     [("app", ChunkConfig.mk ["m"] [])] ["app"] (by decide)⟩

/-! ## Compile cache and serving protocol (serve.ts) -/

/-- The query string of `GET /compile`: `{id, chunk?, parentRequest?}`
(mode is irrelevant here). -/
structure CompileQuery where
  id : String
  chunk : Option String
  parentRequest : Option String
deriving DecidableEq, Repr

/-- One cached compile session: `chunkId → CompiledArtifact`.  The artifact is
optional because serve.ts line 220 stores `chunkOutputs[index]`, which is
`undefined` when the compiler returned fewer outputs than chunks. -/
abbrev Session := List (String × Option CompilerOutput)

/-- `requestId → Session` for one entry id. -/
abbrev ChunkCache := List (String × Session)

/-- The module-level `entryIdToChunkCache` (serve.ts line 33):
`entryId → requestId → (chunkId → CompiledArtifact)`. -/
abbrev ServerCache := List (String × ChunkCache)

/-- JS truthiness of an optional string query parameter. -/
def strTruthy : Option String → Bool
  | none => false
  | some s => ! (s == "")

inductive ReplyResult where
  | served (src : String)
  | failed (msg : String)
deriving DecidableEq, Repr

/-- serve.ts lines 190-192: insert an empty chunk cache for the entry id if
absent. -/
def ensureEntry (cache : ServerCache) (entryId : String) : ServerCache :=
  if cache.any (fun e => e.1 == entryId) then cache
  else cache ++ [(entryId, [])]

def chunkCacheOf (cache : ServerCache) (entryId : String) : ChunkCache :=
  (cache.lookup entryId).getD []

/-- The session stored under `entryId → requestId`, if any. -/
def sessionAt (cache : ServerCache) (entryId requestId : String) :
    Option Session :=
  (chunkCacheOf cache entryId).lookup requestId

/-- serve.ts lines 218-221: `sortedChunkIds.forEach((id, index) =>
chunkIdToOutput[id] = chunkOutputs[index])`. -/
def sessionOfAux (chunkOutputs : List CompilerOutput) :
    Nat → List String → Session → Session
  | _, [], acc => acc
  | i, id :: rest, acc =>
    sessionOfAux chunkOutputs (i + 1) rest (setAssoc acc id chunkOutputs[i]?)

def sessionOf (sortedChunkIds : List String)
    (chunkOutputs : List CompilerOutput) : Session :=
  sessionOfAux chunkOutputs 0 sortedChunkIds []

/-- The compile branch of `replyChunksCompile` (serve.ts lines 211-227):
build the session from the compiler outputs, store it under the fresh request
id, and reply with `chunkIdToOutput[requestedChunkId || rootChunkId].src`
(a TypeError when that entry is missing or undefined).  The third component
counts external-compiler invocations. -/
def compileAndReply (cache1 : ServerCache) (chunkCache : ChunkCache)
    (entryId requestId : String) (query : CompileQuery)
    (sortedChunkIds : List String) (chunkOutputs : List CompilerOutput) :
    ReplyResult × ServerCache × Nat :=
  match (sessionOf sortedChunkIds chunkOutputs).lookup
      (if strTruthy query.chunk then query.chunk.getD ""
       else sortedChunkIds.headD "") with
  | some (some out) =>
    (.served out.src,
     setAssoc cache1 entryId
       (setAssoc chunkCache requestId (sessionOf sortedChunkIds chunkOutputs)),
     1)
  | _ =>
    (.failed "TypeError: cannot read src of undefined",
     setAssoc cache1 entryId
       (setAssoc chunkCache requestId (sessionOf sortedChunkIds chunkOutputs)),
     1)

/-- `replyChunksCompile` (serve.ts lines 182-227) as a state transition on
the module-level cache.  The request path condition mirrors
`if (requestedChunkId && parentRequest && chunkCache.has(parentRequest))`. -/
def replyChunksCompile (cache : ServerCache) (entryId requestId : String)
    (query : CompileQuery) (sortedChunkIds : List String)
    (chunkOutputs : List CompilerOutput) :
    ReplyResult × ServerCache × Nat :=
  if strTruthy query.chunk && strTruthy query.parentRequest then
    match (chunkCacheOf (ensureEntry cache entryId) entryId).lookup
        (query.parentRequest.getD "") with
    | some session =>
      match session.lookup (query.chunk.getD "") with
      | some (some out) => (.served out.src, ensureEntry cache entryId, 0)
      | _ => (.failed ("Unexpected requested chunk: " ++
          (query.chunk.getD "")), ensureEntry cache entryId, 0)
    | none =>
      compileAndReply (ensureEntry cache entryId)
        (chunkCacheOf (ensureEntry cache entryId) entryId)
        entryId requestId query sortedChunkIds chunkOutputs
  else
    compileAndReply (ensureEntry cache entryId)
      (chunkCacheOf (ensureEntry cache entryId) entryId)
      entryId requestId query sortedChunkIds chunkOutputs

/-- Drop every query parameter with the given key. -/
def removeAllParams (ps : List (String × String)) (k : String) :
    List (String × String) :=
  ps.filter (fun e => ! (e.1 == k))

/-- `URLSearchParams.set`: replace the first occurrence in place and drop the
others, or append when the key is absent. -/
def setParam : List (String × String) → String → String →
    List (String × String)
  | [], k, v => [(k, v)]
  | e :: rest, k, v =>
    if e.1 = k then (k, v) :: removeAllParams rest k
    else e :: setParam rest k v

/-- `URLSearchParams.get`: the first value of the key. -/
def getParam (ps : List (String × String)) (k : String) : Option String :=
  ps.lookup k

/-- `createModuleUris` (serve.ts lines 202-209): one same-origin URL per
chunk, obtained from the request URL by setting the `chunk` and
`parentRequest` parameters; a URL is represented by its query parameters. -/
def serveCreateModuleUris (urlParams : List (String × String))
    (requestId : String) (chunkId : String) :
    List (List (String × String)) :=
  [setParam (setParam urlParams "chunk" chunkId) "parentRequest" requestId]

/-- `convertModuleInfos` (compiler.ts lines 363-376): the manifest —
`moduleInfo: chunkId → parentChunkIds` and `moduleUris: chunkId → url[]`. -/
def convertModuleInfos (modules : List (String × ChunkConfig))
    (createUris : String → List (List (String × String))) :
    List (String × List String) ×
      List (String × List (List (String × String))) :=
  (modules.map (fun e => (e.1, e.2.deps)),
   modules.map (fun e => (e.1, createUris e.1)))

/-! ## Properties of the serving protocol -/

theorem any_beq_of_lookup {α : Type} {m : List (String × α)} {k : String}
    {v : α} (h : m.lookup k = some v) :
    m.any (fun e => e.1 == k) = true := by
  induction m with
  | nil => cases h
  | cons e es ih =>
    obtain ⟨a, b⟩ := e
    rw [lookup_cons_eq_if] at h
    by_cases hak : k = a
    · simp [List.any_cons, hak]
    · rw [if_neg hak] at h
      simp [List.any_cons, ih h]

theorem lookup_none_of_not_any {α : Type} {m : List (String × α)}
    {k : String} (h : ¬ m.any (fun e => e.1 == k) = true) :
    m.lookup k = none := by
  cases hm : m.lookup k with
  | none => rfl
  | some v => exact absurd (any_beq_of_lookup hm) h

theorem ensureEntry_of_present {cache : ServerCache} {entryId : String}
    (h : cache.any (fun e => e.1 == entryId) = true) :
    ensureEntry cache entryId = cache := by
  simp [ensureEntry, h]

theorem sessionAt_ensureEntry (cache : ServerCache) (e0 e r : String) :
    sessionAt (ensureEntry cache e0) e r = sessionAt cache e r := by
  unfold ensureEntry
  by_cases hp : cache.any (fun x => x.1 == e0)
  · rw [if_pos hp]
  · rw [if_neg hp]
    unfold sessionAt chunkCacheOf
    by_cases he : e = e0
    · subst he
      rw [lookup_append_single e [] cache hp, lookup_none_of_not_any hp]
      rfl
    · rw [lookup_append_single_ne [] he]

theorem chunkCacheOf_ensureEntry (cache : ServerCache) (e0 : String) :
    chunkCacheOf (ensureEntry cache e0) e0 = chunkCacheOf cache e0 := by
  unfold ensureEntry chunkCacheOf
  by_cases hp : cache.any (fun x => x.1 == e0)
  · rw [if_pos hp]
  · rw [if_neg hp, lookup_append_single e0 [] cache hp,
      lookup_none_of_not_any hp]
    rfl

theorem entry_present_of_sessionAt {cache : ServerCache}
    {e r : String} {s : Session} (h : sessionAt cache e r = some s) :
    cache.any (fun x => x.1 == e) = true := by
  unfold sessionAt chunkCacheOf at h
  cases hm : cache.lookup e with
  | none => rw [hm] at h; cases h
  | some cc => exact any_beq_of_lookup hm

theorem sessionOfAux_lookup_not_mem (chunkOutputs : List CompilerOutput) :
    ∀ (rest : List String) (i : Nat) (acc : Session) (c : String),
      c ∉ rest →
      (sessionOfAux chunkOutputs i rest acc).lookup c = acc.lookup c := by
  intro rest
  induction rest with
  | nil => intro i acc c _; rfl
  | cons id rest ih =>
    intro i acc c hc
    have hcid : c ≠ id := fun h => hc (h ▸ List.mem_cons_self _ _)
    simp only [sessionOfAux]
    rw [ih _ _ _ (fun h => hc (List.mem_cons_of_mem _ h))]
    exact lookup_setAssoc_ne _ _ hcid

theorem sessionOfAux_lookup_mem (chunkOutputs : List CompilerOutput) :
    ∀ (rest : List String) (i : Nat) (acc : Session) (c : String),
      c ∈ rest →
      ∃ j, i ≤ j ∧ j < i + rest.length ∧
        (sessionOfAux chunkOutputs i rest acc).lookup c =
          some chunkOutputs[j]? := by
  intro rest
  induction rest with
  | nil => intro i acc c hc; cases hc
  | cons id rest ih =>
    intro i acc c hc
    by_cases hcr : c ∈ rest
    · obtain ⟨j, h1, h2, h3⟩ := ih (i + 1) (setAssoc acc id chunkOutputs[i]?)
        c hcr
      refine ⟨j, by omega, ?_, h3⟩
      simp only [List.length_cons]
      omega
    · have hcid : c = id := by
        rcases List.mem_cons.mp hc with h | h
        · exact h
        · exact absurd h hcr
      subst hcid
      refine ⟨i, Nat.le_refl _, by simp, ?_⟩
      simp only [sessionOfAux]
      rw [sessionOfAux_lookup_not_mem _ _ _ _ _ hcr]
      exact lookup_setAssoc_self _ _ _

theorem sessionOf_complete {sorted : List String}
    {chunkOutputs : List CompilerOutput}
    (hLen : sorted.length ≤ chunkOutputs.length) :
    ∀ c ∈ sorted, ∃ out,
      (sessionOf sorted chunkOutputs).lookup c = some (some out) := by
  intro c hc
  obtain ⟨j, h1, h2, h3⟩ := sessionOfAux_lookup_mem chunkOutputs sorted 0 []
    c hc
  have hj : j < chunkOutputs.length := by omega
  refine ⟨chunkOutputs[j], ?_⟩
  rw [sessionOf, h3, List.getElem?_eq_getElem hj]

theorem lookup_removeAll_ne {ps : List (String × String)} {k k' : String}
    (h : k' ≠ k) : (removeAllParams ps k).lookup k' = ps.lookup k' := by
  induction ps with
  | nil => rfl
  | cons e es ih =>
    obtain ⟨a, b⟩ := e
    unfold removeAllParams at ih ⊢
    by_cases hak : a = k
    · subst hak
      have hka : k' ≠ a := h
      rw [List.filter_cons, if_neg (by simp), lookup_cons_eq_if,
        if_neg hka]
      exact ih
    · rw [List.filter_cons, if_pos (by simpa using hak), lookup_cons_eq_if,
        lookup_cons_eq_if]
      by_cases hk'a : k' = a
      · rw [if_pos hk'a, if_pos hk'a]
      · rw [if_neg hk'a, if_neg hk'a]
        exact ih

theorem getParam_setParam_self (ps : List (String × String)) (k v : String) :
    getParam (setParam ps k v) k = some v := by
  induction ps with
  | nil => simp [setParam, getParam, lookup_cons_eq_if]
  | cons e es ih =>
    obtain ⟨a, b⟩ := e
    unfold setParam
    by_cases hak : a = k
    · rw [if_pos hak]
      simp [getParam, lookup_cons_eq_if]
    · rw [if_neg hak]
      unfold getParam at ih ⊢
      rw [lookup_cons_eq_if, if_neg (fun h => hak h.symm)]
      exact ih

theorem getParam_setParam_ne (ps : List (String × String)) {k k' : String}
    (v : String) (h : k' ≠ k) :
    getParam (setParam ps k v) k' = getParam ps k' := by
  induction ps with
  | nil => simp [setParam, getParam, lookup_cons_eq_if, h]
  | cons e es ih =>
    obtain ⟨a, b⟩ := e
    unfold setParam
    by_cases hak : a = k
    · rw [if_pos hak]
      unfold getParam
      rw [lookup_cons_eq_if, if_neg h, lookup_cons_eq_if]
      subst hak
      by_cases hk'a : k' = a
      · exact absurd hk'a h
      · rw [if_neg hk'a]
        exact lookup_removeAll_ne h
    · rw [if_neg hak]
      unfold getParam at ih ⊢
      rw [lookup_cons_eq_if, lookup_cons_eq_if]
      by_cases hk'a : k' = a
      · rw [if_pos hk'a, if_pos hk'a]
      · rw [if_neg hk'a, if_neg hk'a]
        exact ih

theorem sessionAt_setAssoc_ne (m : ServerCache) {e0 e : String}
    (X : ChunkCache) (r : String) (h : e ≠ e0) :
    sessionAt (setAssoc m e0 X) e r = sessionAt m e r := by
  unfold sessionAt chunkCacheOf
  rw [lookup_setAssoc_ne _ _ h]

theorem sessionAt_setAssoc_self (m : ServerCache) (e0 : String)
    (X : ChunkCache) (r : String) :
    sessionAt (setAssoc m e0 X) e0 r = X.lookup r := by
  unfold sessionAt chunkCacheOf
  rw [lookup_setAssoc_self]
  rfl

theorem sessionAt_after_write (cache1 : ServerCache) (cc : ChunkCache)
    (entryId requestId : String) (s : Session) :
    sessionAt (setAssoc cache1 entryId (setAssoc cc requestId s))
      entryId requestId = some s := by
  rw [sessionAt_setAssoc_self]
  exact lookup_setAssoc_self _ _ _

theorem compileAndReply_shape (cache1 : ServerCache) (chunkCache : ChunkCache)
    (entryId requestId : String) (query : CompileQuery)
    (sorted : List String) (outputs : List CompilerOutput) :
    (compileAndReply cache1 chunkCache entryId requestId query sorted
        outputs).2.1 =
      setAssoc cache1 entryId
        (setAssoc chunkCache requestId (sessionOf sorted outputs)) ∧
    (compileAndReply cache1 chunkCache entryId requestId query sorted
        outputs).2.2 = 1 := by
  unfold compileAndReply
  refine ⟨?_, ?_⟩ <;> (split <;> rfl)

/-- Claim C10: for every request carrying a chunk id and a parentRequest that
names a live cached session, if the session contains no artifact for the
requested chunk id, the request fails with an error, no compilation is
triggered, and the cache is left unchanged. -/
theorem cached_session_unknown_chunk
    (cache : ServerCache) (entryId requestId : String) (query : CompileQuery)
    (sortedChunkIds : List String) (chunkOutputs : List CompilerOutput)
    (rc pr : String) (session : Session)
    (hrc : query.chunk = some rc) (hrc' : rc ≠ "")
    (hpr : query.parentRequest = some pr) (hpr' : pr ≠ "")
    (hsess : sessionAt cache entryId pr = some session)
    (hmiss : session.lookup rc = none ∨ session.lookup rc = some none) :
    replyChunksCompile cache entryId requestId query sortedChunkIds
        chunkOutputs =
      (.failed ("Unexpected requested chunk: " ++ rc), cache, 0) := by
  have hc1 : ensureEntry cache entryId = cache :=
    ensureEntry_of_present (entry_present_of_sessionAt hsess)
  have hcond : (strTruthy (some rc) && strTruthy (some pr)) = true := by
    simp [strTruthy, hrc', hpr']
  have hsess' : (chunkCacheOf cache entryId).lookup pr = some session := hsess
  rcases hmiss with hlook | hlook <;>
    simp only [replyChunksCompile, hc1, hpr, hrc, hcond, if_true,
      Option.getD_some, hsess', hlook]

/-- Claim C10 (witness): a live session `R0` holding only chunk `app`; the
request for unknown chunk `zz` under `R0` fails without compiling and leaves
the cache unchanged. -/
theorem cached_session_unknown_chunk_witness :
    sessionAt [("main", [("R0", [("app",
        some (CompilerOutput.mk "app.js" "APP" "m"))])])] "main" "R0" =
      some [("app", some (CompilerOutput.mk "app.js" "APP" "m"))] ∧
    replyChunksCompile
      [("main", [("R0", [("app", some (CompilerOutput.mk "app.js" "APP" "m"))])])]
      "main" "R9" (CompileQuery.mk "main" (some "zz") (some "R0"))
      ["app"] [CompilerOutput.mk "app.js" "APP2" "m"] =
      (.failed ("Unexpected requested chunk: " ++ "zz"),
       [("main", [("R0", [("app", some (CompilerOutput.mk "app.js" "APP" "m"))])])],
       0) :=
  ⟨rfl,
   cached_session_unknown_chunk
     [("main", [("R0", [("app", some (CompilerOutput.mk "app.js" "APP" "m"))])])]
     "main" "R9" (CompileQuery.mk "main" (some "zz") (some "R0"))
     ["app"] [CompilerOutput.mk "app.js" "APP2" "m"] "zz" "R0"
     [("app", some (CompilerOutput.mk "app.js" "APP" "m"))]
     rfl (by decide) rfl (by decide) rfl (Or.inl rfl)⟩

/-- Claim C1 (counterexample): a request with `chunk=a` and a stale
`parentRequest=OLD` (no such session in the cache) does not fail with a
stale-session error: it triggers a full compile (count 1) and serves the
freshly compiled chunk. -/
theorem stale_parent_request_counterexample :
    (replyChunksCompile
        [("main", [("R0", [("app", some (CompilerOutput.mk "app.js" "APP" "m"))])])]
        "main" "R9" (CompileQuery.mk "main" (some "a") (some "OLD"))
        ["app", "a"]
        [CompilerOutput.mk "app.js" "APP2" "m", CompilerOutput.mk "a.js" "A2" "m"]).2.2
      = 1 ∧
    (replyChunksCompile
        [("main", [("R0", [("app", some (CompilerOutput.mk "app.js" "APP" "m"))])])]
        "main" "R9" (CompileQuery.mk "main" (some "a") (some "OLD"))
        ["app", "a"]
        [CompilerOutput.mk "app.js" "APP2" "m", CompilerOutput.mk "a.js" "A2" "m"]).1
      = .served "A2" := by
  constructor
  · rfl
  · rfl

/-- Claim C1 (amended): for a request carrying both a nonempty chunk id and a
nonempty parentRequest id: if the cache holds a session under parentRequest
containing an artifact for the chunk, it is served with no compiler
invocation and the cache unchanged; if the cache holds no session under
parentRequest, the server does not fail — it falls through to a full fresh
compile, invoking the compiler once and storing a new session under the
current request id. -/
theorem parent_request_behavior
    (cache : ServerCache) (entryId requestId : String) (query : CompileQuery)
    (sortedChunkIds : List String) (chunkOutputs : List CompilerOutput)
    (rc pr : String)
    (hrc : query.chunk = some rc) (hrc' : rc ≠ "")
    (hpr : query.parentRequest = some pr) (hpr' : pr ≠ "") :
    (∀ session out, sessionAt cache entryId pr = some session →
      session.lookup rc = some (some out) →
      replyChunksCompile cache entryId requestId query sortedChunkIds
        chunkOutputs = (.served out.src, cache, 0)) ∧
    (sessionAt cache entryId pr = none →
      (replyChunksCompile cache entryId requestId query sortedChunkIds
        chunkOutputs).2.2 = 1 ∧
      sessionAt (replyChunksCompile cache entryId requestId query
        sortedChunkIds chunkOutputs).2.1 entryId requestId =
        some (sessionOf sortedChunkIds chunkOutputs)) := by
  have hcond : (strTruthy (some rc) && strTruthy (some pr)) = true := by
    simp [strTruthy, hrc', hpr']
  constructor
  · intro session out hsess hout
    have hc1 : ensureEntry cache entryId = cache :=
      ensureEntry_of_present (entry_present_of_sessionAt hsess)
    have hsess' : (chunkCacheOf cache entryId).lookup pr = some session :=
      hsess
    simp only [replyChunksCompile, hc1, hpr, hrc, hcond, if_true,
      Option.getD_some, hsess', hout]
  · intro hnone
    have hn1 : (chunkCacheOf (ensureEntry cache entryId) entryId).lookup pr
        = none :=
      (sessionAt_ensureEntry cache entryId entryId pr).trans hnone
    have hred : replyChunksCompile cache entryId requestId query
        sortedChunkIds chunkOutputs =
        compileAndReply (ensureEntry cache entryId)
          (chunkCacheOf (ensureEntry cache entryId) entryId)
          entryId requestId query sortedChunkIds chunkOutputs := by
      simp only [replyChunksCompile, hpr, hrc, hcond, if_true,
        Option.getD_some, hn1]
    obtain ⟨hst, hcnt⟩ := compileAndReply_shape (ensureEntry cache entryId)
      (chunkCacheOf (ensureEntry cache entryId) entryId)
      entryId requestId query sortedChunkIds chunkOutputs
    rw [hred]
    refine ⟨hcnt, ?_⟩
    rw [hst]
    exact sessionAt_after_write _ _ _ _ _

/-- Claim C1 (amended, witness): the cached-hit branch serves the stored
artifact without compiling, and the stale branch mints a fresh session. -/
theorem parent_request_behavior_witness :
    ((∀ session out,
      sessionAt [("main", [("R0", [("a",
          some (CompilerOutput.mk "a.js" "A" "m"))])])] "main" "R0" =
        some session →
      session.lookup "a" = some (some out) →
      replyChunksCompile
        [("main", [("R0", [("a", some (CompilerOutput.mk "a.js" "A" "m"))])])]
        "main" "R9" (CompileQuery.mk "main" (some "a") (some "R0"))
        ["a"] [CompilerOutput.mk "a.js" "A2" "m"] =
        (.served out.src,
         [("main", [("R0", [("a", some (CompilerOutput.mk "a.js" "A" "m"))])])],
         0)) ∧
     (sessionAt [("main", [("R0", [("a",
          some (CompilerOutput.mk "a.js" "A" "m"))])])] "main" "R0" = none →
      (replyChunksCompile
        [("main", [("R0", [("a", some (CompilerOutput.mk "a.js" "A" "m"))])])]
        "main" "R9" (CompileQuery.mk "main" (some "a") (some "R0"))
        ["a"] [CompilerOutput.mk "a.js" "A2" "m"]).2.2 = 1 ∧
      sessionAt (replyChunksCompile
        [("main", [("R0", [("a", some (CompilerOutput.mk "a.js" "A" "m"))])])]
        "main" "R9" (CompileQuery.mk "main" (some "a") (some "R0"))
        ["a"] [CompilerOutput.mk "a.js" "A2" "m"]).2.1 "main" "R9" =
        some (sessionOf ["a"] [CompilerOutput.mk "a.js" "A2" "m"]))) ∧
    replyChunksCompile
      [("main", [("R0", [("a", some (CompilerOutput.mk "a.js" "A" "m"))])])]
      "main" "R9" (CompileQuery.mk "main" (some "a") (some "R0"))
      ["a"] [CompilerOutput.mk "a.js" "A2" "m"] =
      (.served "A",
       [("main", [("R0", [("a", some (CompilerOutput.mk "a.js" "A" "m"))])])],
       0) := by
  have h := parent_request_behavior
    [("main", [("R0", [("a", some (CompilerOutput.mk "a.js" "A" "m"))])])]
    "main" "R9" (CompileQuery.mk "main" (some "a") (some "R0"))
    ["a"] [CompilerOutput.mk "a.js" "A2" "m"] "a" "R0"
    rfl (by decide) rfl (by decide)
  exact ⟨h, h.1 [("a", some (CompilerOutput.mk "a.js" "A" "m"))]
    (CompilerOutput.mk "a.js" "A" "m") rfl rfl⟩

/-- Either the request is answered from the cache (state only gets the
ensured entry, no compile), or a fresh session is written under the current
request id (exactly one compile). -/
theorem replyChunksCompile_shape (cache : ServerCache)
    (entryId requestId : String) (query : CompileQuery)
    (sorted : List String) (outputs : List CompilerOutput) :
    ((replyChunksCompile cache entryId requestId query sorted outputs).2.1 =
        ensureEntry cache entryId ∧
     (replyChunksCompile cache entryId requestId query sorted outputs).2.2
        = 0) ∨
    ((replyChunksCompile cache entryId requestId query sorted outputs).2.1 =
        setAssoc (ensureEntry cache entryId) entryId
          (setAssoc (chunkCacheOf (ensureEntry cache entryId) entryId)
            requestId (sessionOf sorted outputs)) ∧
     (replyChunksCompile cache entryId requestId query sorted outputs).2.2
        = 1) := by
  unfold replyChunksCompile
  split
  · split
    · split <;> (left; exact ⟨rfl, rfl⟩)
    · right
      exact compileAndReply_shape _ _ _ _ _ _ _
  · right
    exact compileAndReply_shape _ _ _ _ _ _ _

/-- Claim C8: the per-entry compile cache is written at most once per
`(entryId, requestId)` pair — every other `(entry, request)` key is left
exactly as it was — the write never overwrites an existing request id (the
request id is fresh by hypothesis, as fastify request ids are unique), the
written value is exactly the session built from the resolved compiler
outputs, and the stored session is complete: it maps every chunk id of the
sorted chunk list to a compiled artifact. -/
theorem cache_write_once_complete
    (cache : ServerCache) (entryId requestId : String) (query : CompileQuery)
    (sorted : List String) (outputs : List CompilerOutput)
    (hLen : sorted.length ≤ outputs.length)
    (hFresh : sessionAt cache entryId requestId = none) :
    (∀ e r, e ≠ entryId ∨ r ≠ requestId →
      sessionAt (replyChunksCompile cache entryId requestId query sorted
        outputs).2.1 e r = sessionAt cache e r) ∧
    (((replyChunksCompile cache entryId requestId query sorted outputs).2.2
        = 0 ∧
      sessionAt (replyChunksCompile cache entryId requestId query sorted
        outputs).2.1 entryId requestId = none) ∨
     ((replyChunksCompile cache entryId requestId query sorted outputs).2.2
        = 1 ∧
      sessionAt (replyChunksCompile cache entryId requestId query sorted
        outputs).2.1 entryId requestId = some (sessionOf sorted outputs) ∧
      ∀ c ∈ sorted, ∃ out,
        (sessionOf sorted outputs).lookup c = some (some out))) := by
  rcases replyChunksCompile_shape cache entryId requestId query sorted
    outputs with ⟨hst, hcnt⟩ | ⟨hst, hcnt⟩
  · constructor
    · intro e r _
      rw [hst]
      exact sessionAt_ensureEntry cache entryId e r
    · left
      refine ⟨hcnt, ?_⟩
      rw [hst, sessionAt_ensureEntry]
      exact hFresh
  · constructor
    · intro e r hne
      rw [hst]
      by_cases he : e = entryId
      · subst he
        have hr : r ≠ requestId := by
          rcases hne with h | h
          · exact absurd rfl h
          · exact h
        rw [sessionAt_setAssoc_self, lookup_setAssoc_ne _ _ hr]
        exact sessionAt_ensureEntry cache e e r
      · rw [sessionAt_setAssoc_ne _ _ _ he]
        exact sessionAt_ensureEntry cache entryId e r
    · right
      refine ⟨hcnt, ?_, sessionOf_complete hLen⟩
      rw [hst]
      exact sessionAt_after_write _ _ _ _ _

/-- Claim C8 (witness): starting from a cache holding session `R0`, a fresh
request `R1` leaves `R0` intact and stores a complete new session. -/
theorem cache_write_once_complete_witness :
    ((["app"] : List String).length ≤
      ([CompilerOutput.mk "app.js" "APP2" "m"] :
        List CompilerOutput).length) ∧
    sessionAt [("main", [("R0", [("app",
        some (CompilerOutput.mk "app.js" "APP" "m"))])])] "main" "R1" =
      none ∧
    ((∀ e r, e ≠ "main" ∨ r ≠ "R1" →
      sessionAt (replyChunksCompile
        [("main", [("R0", [("app", some (CompilerOutput.mk "app.js" "APP" "m"))])])]
        "main" "R1" (CompileQuery.mk "main" none none) ["app"]
        [CompilerOutput.mk "app.js" "APP2" "m"]).2.1 e r =
      sessionAt
        [("main", [("R0", [("app", some (CompilerOutput.mk "app.js" "APP" "m"))])])]
        e r) ∧
     (((replyChunksCompile
        [("main", [("R0", [("app", some (CompilerOutput.mk "app.js" "APP" "m"))])])]
        "main" "R1" (CompileQuery.mk "main" none none) ["app"]
        [CompilerOutput.mk "app.js" "APP2" "m"]).2.2 = 0 ∧
      sessionAt (replyChunksCompile
        [("main", [("R0", [("app", some (CompilerOutput.mk "app.js" "APP" "m"))])])]
        "main" "R1" (CompileQuery.mk "main" none none) ["app"]
        [CompilerOutput.mk "app.js" "APP2" "m"]).2.1 "main" "R1" = none) ∨
     ((replyChunksCompile
        [("main", [("R0", [("app", some (CompilerOutput.mk "app.js" "APP" "m"))])])]
        "main" "R1" (CompileQuery.mk "main" none none) ["app"]
        [CompilerOutput.mk "app.js" "APP2" "m"]).2.2 = 1 ∧
      sessionAt (replyChunksCompile
        [("main", [("R0", [("app", some (CompilerOutput.mk "app.js" "APP" "m"))])])]
        "main" "R1" (CompileQuery.mk "main" none none) ["app"]
        [CompilerOutput.mk "app.js" "APP2" "m"]).2.1 "main" "R1" =
        some (sessionOf ["app"] [CompilerOutput.mk "app.js" "APP2" "m"]) ∧
      ∀ c ∈ ["app"], ∃ out,
        (sessionOf ["app"]
          [CompilerOutput.mk "app.js" "APP2" "m"]).lookup c =
          some (some out)))) :=
  ⟨by decide, rfl,
   cache_write_once_complete
     [("main", [("R0", [("app", some (CompilerOutput.mk "app.js" "APP" "m"))])])]
     "main" "R1" (CompileQuery.mk "main" none none) ["app"]
     [CompilerOutput.mk "app.js" "APP2" "m"] (by decide) rfl⟩

/-- Claim C4 (counterexample): a request carrying `chunk=a` but no
`parentRequest` replies with chunk `a`'s artifact, not the root chunk's
(`app`, whose artifact source is `APP`), contradicting "replies with the root
chunk's artifact". -/
theorem fresh_request_reply_counterexample :
    (replyChunksCompile [] "main" "R1"
        (CompileQuery.mk "main" (some "a") none) ["app", "a"]
        [CompilerOutput.mk "app.js" "APP" "m",
         CompilerOutput.mk "a.js" "A" "m"]).1 = .served "A" ∧
    (replyChunksCompile [] "main" "R1"
        (CompileQuery.mk "main" (some "a") none) ["app", "a"]
        [CompilerOutput.mk "app.js" "APP" "m",
         CompilerOutput.mk "a.js" "A" "m"]).1 ≠ .served "APP" ∧
    ["app", "a"].headD "" = "app" ∧
    (sessionOf ["app", "a"]
        [CompilerOutput.mk "app.js" "APP" "m",
         CompilerOutput.mk "a.js" "A" "m"]).lookup "app" =
      some (some (CompilerOutput.mk "app.js" "APP" "m")) := by
  refine ⟨rfl, ?_, rfl, rfl⟩
  decide

/-- Claim C4 (amended): a request with no `parentRequest` invokes the
compiler exactly once over the whole chunk set, stores the complete set of
artifacts in the cache under the entry id and the current (fresh) request id,
and replies with the artifact of the requested chunk when a nonempty `chunk`
parameter is present, otherwise the root chunk's artifact; the manifest's
per-chunk URLs carry that chunk's id and the new request id as parameters. -/
theorem fresh_compile_behavior
    (cache : ServerCache) (entryId requestId : String) (query : CompileQuery)
    (urlParams : List (String × String))
    (modules : List (String × ChunkConfig))
    (sorted : List String) (outputs : List CompilerOutput)
    (hpr : query.parentRequest = none)
    (hLen : sorted.length ≤ outputs.length) :
    (replyChunksCompile cache entryId requestId query sorted outputs).2.2
      = 1 ∧
    sessionAt (replyChunksCompile cache entryId requestId query sorted
      outputs).2.1 entryId requestId = some (sessionOf sorted outputs) ∧
    (∀ c ∈ sorted, ∃ out,
      (sessionOf sorted outputs).lookup c = some (some out)) ∧
    (∀ out, (sessionOf sorted outputs).lookup
        (if strTruthy query.chunk then query.chunk.getD ""
         else sorted.headD "") = some (some out) →
      (replyChunksCompile cache entryId requestId query sorted outputs).1 =
        .served out.src) ∧
    (∀ e ∈ (convertModuleInfos modules
        (serveCreateModuleUris urlParams requestId)).2,
      ∀ u ∈ e.2, getParam u "chunk" = some e.1 ∧
        getParam u "parentRequest" = some requestId) := by
  have hcond : (strTruthy query.chunk && strTruthy query.parentRequest)
      = false := by
    rw [hpr]
    simp [strTruthy]
  have hred : replyChunksCompile cache entryId requestId query sorted
      outputs =
      compileAndReply (ensureEntry cache entryId)
        (chunkCacheOf (ensureEntry cache entryId) entryId)
        entryId requestId query sorted outputs := by
    simp only [replyChunksCompile, hcond, Bool.false_eq_true, if_false]
  obtain ⟨hst, hcnt⟩ := compileAndReply_shape (ensureEntry cache entryId)
    (chunkCacheOf (ensureEntry cache entryId) entryId)
    entryId requestId query sorted outputs
  refine ⟨by rw [hred]; exact hcnt, ?_, sessionOf_complete hLen, ?_, ?_⟩
  · rw [hred, hst]
    exact sessionAt_after_write _ _ _ _ _
  · intro out hout
    rw [hred]
    simp only [compileAndReply, hout]
  · intro e he u hu
    obtain ⟨m, _, rfl⟩ := List.mem_map.mp he
    rcases List.mem_singleton.mp hu with rfl
    constructor
    · rw [getParam_setParam_ne _ _ (by decide)]
      exact getParam_setParam_self _ _ _
    · exact getParam_setParam_self _ _ _

/-- Claim C4 (amended, witness): two chunks, no `parentRequest`, no `chunk`
parameter — the compiler runs once, the stored session is complete, the root
chunk's artifact is served, and every manifest URL carries its chunk id and
the new request id. -/
theorem fresh_compile_behavior_witness :
    ((["app", "a"] : List String).length ≤
      ([CompilerOutput.mk "app.js" "APP" "m",
        CompilerOutput.mk "a.js" "A" "m"] : List CompilerOutput).length) ∧
    ((replyChunksCompile [] "main" "R1"
        (CompileQuery.mk "main" none none) ["app", "a"]
        [CompilerOutput.mk "app.js" "APP" "m",
         CompilerOutput.mk "a.js" "A" "m"]).2.2 = 1 ∧
     sessionAt (replyChunksCompile [] "main" "R1"
        (CompileQuery.mk "main" none none) ["app", "a"]
        [CompilerOutput.mk "app.js" "APP" "m",
         CompilerOutput.mk "a.js" "A" "m"]).2.1 "main" "R1" =
        some (sessionOf ["app", "a"]
          [CompilerOutput.mk "app.js" "APP" "m",
           CompilerOutput.mk "a.js" "A" "m"]) ∧
     (∀ c ∈ ["app", "a"], ∃ out,
       (sessionOf ["app", "a"]
         [CompilerOutput.mk "app.js" "APP" "m",
          CompilerOutput.mk "a.js" "A" "m"]).lookup c = some (some out)) ∧
     (∀ out, (sessionOf ["app", "a"]
         [CompilerOutput.mk "app.js" "APP" "m",
          CompilerOutput.mk "a.js" "A" "m"]).lookup
         (if strTruthy (CompileQuery.mk "main" none none).chunk then
           (CompileQuery.mk "main" none none).chunk.getD ""
          else ["app", "a"].headD "") = some (some out) →
       (replyChunksCompile [] "main" "R1"
         (CompileQuery.mk "main" none none) ["app", "a"]
         [CompilerOutput.mk "app.js" "APP" "m",
          CompilerOutput.mk "a.js" "A" "m"]).1 = .served out.src) ∧
     (∀ e ∈ (convertModuleInfos
         [("app", ChunkConfig.mk ["x"] []), ("a", ChunkConfig.mk ["y"] ["app"])]
         (serveCreateModuleUris [("id", "main")] "R1")).2,
       ∀ u ∈ e.2, getParam u "chunk" = some e.1 ∧
         getParam u "parentRequest" = some "R1")) :=
  ⟨by decide,
   fresh_compile_behavior [] "main" "R1" (CompileQuery.mk "main" none none)
     [("id", "main")]
     [("app", ChunkConfig.mk ["x"] []), ("a", ChunkConfig.mk ["y"] ["app"])]
     ["app", "a"]
     [CompilerOutput.mk "app.js" "APP" "m", CompilerOutput.mk "a.js" "A" "m"]
     rfl (by decide)⟩

/-! ## Dependency caches (gendeps.ts) -/

/-- The entry-config fields used by gendeps.ts (`test-excludes` is written
`testExcludes`). -/
structure GendepsEntryConfig where
  id : String
  paths : List String
  testExcludes : Option (List String)
deriving DecidableEq, Repr

/-- The result of `parser.parseFileAsync` (google-closure-deps
collaborator). -/
structure ParseResult where
  hasFatalError : Bool
  dependencies : List Dependency
deriving DecidableEq, Repr

/-- `getDependencies` (gendeps.ts lines 53-92) with the module-level
`dependenciesCache` passed explicitly; `fsList` is the `recursive-readdir`
collaborator (a path and ignore globs to the contained files) and
`parseFile` the parser.  Returns the result and the updated cache. -/
def getDependencies
    (fsList : String → List String → List String)
    (parseFile : String → ParseResult)
    (cache : List (String × List Dependency))
    (entryConfig : GendepsEntryConfig) (ignoreDir : Option String) :
    Except String (List Dependency) × List (String × List Dependency) :=
  match cache.lookup entryConfig.id with
  | some deps => (.ok deps, cache)
  | none =>
    let results := (entryConfig.paths.map (fun p =>
      let ignoreDirs := match ignoreDir with
        | some d => [d ++ "/*"]
        | none => []
      ((fsList p ignoreDirs).filter (fun file => file.endsWith ".js")
        |>.filter (fun file =>
          match entryConfig.testExcludes with
          | some excludes =>
            if excludes.any (fun ex => file.startsWith ex) then
              ! file.endsWith "_test.js"
            else true
          | none => true)).map parseFile)).flatten
    if results.any (fun r => r.hasFatalError) then
      (.error "Fatal parse error", cache)
    else
      let deps := (results.map ParseResult.dependencies).flatten
      (.ok deps, setAssoc cache entryConfig.id deps)

/-- gendeps.ts lines 37-40: SCRIPT dependencies are temporarily retyped to
CLOSURE_PROVIDE for rendering (and restored afterwards). -/
def flipScript (d : Dependency) : Dependency :=
  if d.type = DependencyType.script then
    { d with type := DependencyType.closureProvide }
  else d

/-- `generateDepFileText` (gendeps.ts lines 21-48) with the module-level
`depFileTextCache` passed explicitly; `render` abstracts
`depFile.getDepFileText` applied at the google base dir virtual path.
Returns the result, the updated text cache, and the updated dependencies
cache. -/
def generateDepFileText
    (fsList : String → List String → List String)
    (parseFile : String → ParseResult)
    (render : List Dependency → String)
    (textCache : List (String × String))
    (depsCache : List (String × List Dependency))
    (entryConfig : GendepsEntryConfig) (closureLibraryDir : String) :
    Except String String ×
      List (String × String) × List (String × List Dependency) :=
  match textCache.lookup entryConfig.id with
  | some text => (.ok text, textCache, depsCache)
  | none =>
    match getDependencies fsList parseFile depsCache entryConfig
        (some closureLibraryDir) with
    | (.error e, depsCache') => (.error e, textCache, depsCache')
    | (.ok deps, depsCache') =>
      (.ok (render (deps.map flipScript)),
       setAssoc textCache entryConfig.id (render (deps.map flipScript)),
       depsCache')

/-- Claim C9: for every entry config whose id is already a key of the
module-level dependencies cache, `getDependencies` returns the previously
cached dependency array unchanged and ignores all current arguments —
including a different `ignoreDir`, changed entry config paths or
test-excludes, and a different filesystem or parser; the same holds for
`generateDepFileText` keyed on the same id in its text cache. -/
theorem dependencies_cache_ignores_args
    (fsList : String → List String → List String)
    (parseFile : String → ParseResult)
    (render : List Dependency → String)
    (cache : List (String × List Dependency))
    (textCache : List (String × String))
    (entryConfig : GendepsEntryConfig) (ignoreDir : Option String)
    (closureLibraryDir : String)
    (deps : List Dependency) (text : String)
    (hdep : cache.lookup entryConfig.id = some deps)
    (htext : textCache.lookup entryConfig.id = some text) :
    getDependencies fsList parseFile cache entryConfig ignoreDir =
      (.ok deps, cache) ∧
    generateDepFileText fsList parseFile render textCache cache
      entryConfig closureLibraryDir = (.ok text, textCache, cache) := by
  constructor
  · unfold getDependencies
    rw [hdep]
  · unfold generateDepFileText
    rw [htext]

/-- Claim C9 (witness): an entry config with id `e1` whose caches are
populated; a call with different paths, a test-excludes list, a different
ignore dir, an empty filesystem and a trivial parser still returns the cached
values and leaves both caches unchanged. -/
theorem dependencies_cache_ignores_args_witness :
    ([("e1", [Dependency.mk .script "old.js" ["p"] []])].lookup "e1" =
      some [Dependency.mk .script "old.js" ["p"] []]) ∧
    ([("e1", "cached text")].lookup "e1" = some "cached text") ∧
    getDependencies (fun _ _ => []) (fun _ => ParseResult.mk false [])
      [("e1", [Dependency.mk .script "old.js" ["p"] []])]
      (GendepsEntryConfig.mk "e1" ["changed-path"] (some ["t"]))
      (some "other-ignore-dir") =
      (.ok [Dependency.mk .script "old.js" ["p"] []],
       [("e1", [Dependency.mk .script "old.js" ["p"] []])]) ∧
    generateDepFileText (fun _ _ => []) (fun _ => ParseResult.mk false [])
      (fun _ => "rendered")
      [("e1", "cached text")]
      [("e1", [Dependency.mk .script "old.js" ["p"] []])]
      (GendepsEntryConfig.mk "e1" ["changed-path"] (some ["t"])) "lib" =
      (.ok "cached text", [("e1", "cached text")],
       [("e1", [Dependency.mk .script "old.js" ["p"] []])]) := by
  have h := dependencies_cache_ignores_args (fun _ _ => [])
    (fun _ => ParseResult.mk false []) (fun _ => "rendered")
    [("e1", [Dependency.mk .script "old.js" ["p"] []])]
    [("e1", "cached text")]
    (GendepsEntryConfig.mk "e1" ["changed-path"] (some ["t"]))
    (some "other-ignore-dir") "lib"
    [Dependency.mk .script "old.js" ["p"] []] "cached text" rfl rfl
  exact ⟨rfl, rfl, h.1, h.2⟩

end Duck
